import Mathlib

/-!
Verification of `build_trie.py` (OC-NTNU/mrner): an entity loader that reads
tab-separated gazetteer records, filters them, tokenizes names, and a trie
builder that inserts each entity's token sequence into a prefix tree.

The Python data model is embedded shallowly:
* `Entity` is the namedtuple `Entity(tokens, id)`.
* `Node` is the namedtuple `Node(ids, children)`; the `children` dict is
  modelled as an insertion-ordered association list (Python dicts preserve
  insertion order and new keys are appended at the end).
* In-place mutation of the shared trie during insertion becomes the
  functional update `insertTokens`.
* The loader split/filter logic operates on the character lists of the
  input lines, mirroring `str.split('\t')`, `str.split()` and the compiled
  regular expression `^[A-Z]+[0-9][A-Z0-9]*$`.
-/

set_option autoImplicit false

namespace Mrner

/-- `Entity = namedtuple('Entity', ('tokens', 'id'))`. -/
structure Entity where
  tokens : List String
  id : String
deriving DecidableEq, Repr

/-- `Node = namedtuple('Node', ('ids', 'children'))`; `children` is the
insertion-ordered dict from tokens to child nodes. -/
inductive Node where
  | mk : List String → List (String × Node) → Node

/-- The `ids` field of a node. -/
def Node.ids : Node → List String
  | .mk ids _ => ids

/-- The `children` field of a node. -/
def Node.children : Node → List (String × Node)
  | .mk _ cs => cs

@[simp] theorem Node.ids_mk (ids : List String) (cs : List (String × Node)) :
    (Node.mk ids cs).ids = ids := rfl

@[simp] theorem Node.children_mk (ids : List String) (cs : List (String × Node)) :
    (Node.mk ids cs).children = cs := rfl

theorem Node.eta (n : Node) : Node.mk n.ids n.children = n := by
  cases n; rfl

/-- Dict lookup `node.children[token]` (first matching key). -/
def lookupChild (t : String) : List (String × Node) → Option Node
  | [] => none
  | (k, n) :: rest => if k = t then some n else lookupChild t rest

/-- Dict assignment to an existing key: replace the value stored at `t`,
keeping insertion order. -/
def updateChild (t : String) (x : Node) : List (String × Node) → List (String × Node)
  | [] => []
  | (k, n) :: rest => if k = t then (k, x) :: rest else (k, n) :: updateChild t x rest

@[simp] theorem lookupChild_nil (t : String) : lookupChild t [] = none := rfl

@[simp] theorem lookupChild_cons (t k : String) (n : Node) (rest : List (String × Node)) :
    lookupChild t ((k, n) :: rest) = if k = t then some n else lookupChild t rest := rfl

@[simp] theorem updateChild_nil (t : String) (x : Node) : updateChild t x [] = [] := rfl

@[simp] theorem updateChild_cons (t : String) (x : Node) (k : String) (n : Node)
    (rest : List (String × Node)) :
    updateChild t x ((k, n) :: rest) =
      if k = t then (k, x) :: rest else (k, n) :: updateChild t x rest := rfl

/-- `Node([], {})`: a fresh empty node. -/
def emptyNode : Node := .mk [] []

/-- The inner loop of `build_trie` for one entity: walk the trie along
`tokens`, creating missing children (appended at the end of the dict), and
append `i` to the final node's `ids`. -/
def insertTokens : Node → List String → String → Node
  | n, [], i => .mk (n.ids ++ [i]) n.children
  | n, t :: ts, i =>
    match lookupChild t n.children with
    | some c => .mk n.ids (updateChild t (insertTokens c ts i) n.children)
    | none => .mk n.ids (n.children ++ [(t, insertTokens emptyNode ts i)])

/-- `build_trie(entities)`: fold entity insertion over the input sequence,
starting from `Node([], {})`. -/
def build_trie (entities : List Entity) : Node :=
  entities.foldl (fun t e => insertTokens t e.tokens e.id) emptyNode

/-- Walk from a node through `children` by the given tokens in order. -/
def findNode : Node → List String → Option Node
  | n, [] => some n
  | n, t :: ts =>
    match lookupChild t n.children with
    | some c => findNode c ts
    | none => none

/-- The `ids` list found at the end of a token path (empty if the path does
not exist). -/
def idsAt (n : Node) (p : List String) : List String :=
  match findNode n p with
  | some m => m.ids
  | none => []

@[simp] theorem findNode_nil (n : Node) : findNode n [] = some n := rfl

theorem findNode_cons (n : Node) (t : String) (ts : List String) :
    findNode n (t :: ts) =
      match lookupChild t n.children with
      | some c => findNode c ts
      | none => none := rfl

/-! ### Entity loader (`read_mr_entities`) -/

/-- `line.split('\t')`: split a character list at every occurrence of the
separator, keeping empty fields. -/
def splitOnChar (sep : Char) : List Char → List (List Char)
  | [] => [[]]
  | c :: cs =>
    match splitOnChar sep cs with
    | [] => [[]]
    | f :: fs => if c = sep then [] :: f :: fs else (c :: f) :: fs

/-- Whitespace characters relevant to `str.split()` on gazetteer fields. -/
def isSpaceChar (c : Char) : Bool :=
  c = ' ' || c = '\t' || c = '\n' || c = '\r'

/-- `geo_name.split()`: split on runs of whitespace, producing no empty
tokens. -/
def splitWS : List Char → List Char → List (List Char)
  | [], acc => if acc.isEmpty then [] else [acc.reverse]
  | c :: cs, acc =>
    if isSpaceChar c then
      if acc.isEmpty then splitWS cs [] else acc.reverse :: splitWS cs []
    else splitWS cs (c :: acc)

/-- The fields of one input line, as strings. -/
def splitFields (line : String) : List String :=
  (splitOnChar '\t' line.data).map String.mk

/-- `geo_name.split()` as a list of tokens (strings). -/
def tokenize (name : String) : List String :=
  (splitWS name.data []).map String.mk

def isUpperChar (c : Char) : Bool := 'A' ≤ c && c ≤ 'Z'

def isDigitChar (c : Char) : Bool := '0' ≤ c && c ≤ '9'

/-- The compiled regular expression `^[A-Z]+[0-9][A-Z0-9]*$` as a full-string
matcher: since `[A-Z]` and `[0-9]` are disjoint, the greedy match is
deterministic — take the maximal uppercase run, require it nonempty, require
the next character to be a digit, require everything after it to be
uppercase-or-digit. -/
def matchesPat (s : String) : Bool :=
  let u := s.data.takeWhile (fun c => isUpperChar c)
  let rest := s.data.dropWhile (fun c => isUpperChar c)
  match rest with
  | [] => false
  | d :: v => !u.isEmpty && isDigitChar d && v.all (fun c => isUpperChar c || isDigitChar c)

/-- `SKIPPED_PLACE_TYPES` (the Python set, as a list). -/
def SKIPPED_PLACE_TYPES : List String :=
  ["ICES Statistical Rectangles", "FAO Subdivisions", "NAFO Area", "ICES Areas"]

/-- `SKIPPED_GEO_NAMES` (the Python set, as a list). -/
def SKIPPED_GEO_NAMES : List String := ["As", "Of"]

/-- The body of the loader loop for one line: `none` when the line is
malformed (field count ≠ 4) or matches one of the three skip rules;
otherwise the emitted `Entity(tokens, mrgid)`. `pat` stands for the compiled
`skipped_geo_names_pat` regular expression. -/
def processLine (sgn : List String) (pat : String → Bool) (spt : List String)
    (line : String) : Option Entity :=
  match splitFields line with
  | [mrgid, geo_name, _language, place_type] =>
    if spt.contains place_type || sgn.contains geo_name || pat geo_name then none
    else some ⟨tokenize geo_name, mrgid⟩
  | _ => none

/-- The loader loop over the lines after the header. -/
def readLoop (sgn : List String) (pat : String → Bool) (spt : List String) :
    List String → List Entity
  | [] => []
  | line :: rest =>
    match processLine sgn pat spt line with
    | none => readLoop sgn pat spt rest
    | some e => e :: readLoop sgn pat spt rest

/-- `read_mr_entities`: skip the header line, then run the loop over the
remaining lines (each line given with its trailing newline already
stripped). -/
def read_mr_entities (sgn : List String) (pat : String → Bool) (spt : List String)
    (lines : List String) : List Entity :=
  match lines with
  | [] => []
  | _header :: rest => readLoop sgn pat spt rest

@[simp] theorem readLoop_nil (sgn : List String) (pat : String → Bool) (spt : List String) :
    readLoop sgn pat spt [] = [] := rfl

theorem readLoop_cons (sgn : List String) (pat : String → Bool) (spt : List String)
    (line : String) (rest : List String) :
    readLoop sgn pat spt (line :: rest) =
      match processLine sgn pat spt line with
      | none => readLoop sgn pat spt rest
      | some e => e :: readLoop sgn pat spt rest := rfl

/-! ### Measures on tries: node count (the `node_count` counter), total id
placements, reachable paths, and the children-keys-unique invariant. -/

mutual

/-- Number of nodes in a trie (what the `node_count` counter of `build_trie`
tracks: the root plus every node ever created). -/
def countNodes : Node → Nat
  | .mk _ cs => 1 + countNodesL cs

/-- Sum of `countNodes` over the child nodes of an association list. -/
def countNodesL : List (String × Node) → Nat
  | [] => 0
  | (_, n) :: rest => countNodes n + countNodesL rest

end

mutual

/-- Total number of id placements in a trie: the sum of `ids.length` over
all reachable nodes. -/
def totalIds : Node → Nat
  | .mk ids cs => ids.length + totalIdsL cs

/-- Sum of `totalIds` over the child nodes of an association list. -/
def totalIdsL : List (String × Node) → Nat
  | [] => 0
  | (_, n) :: rest => totalIds n + totalIdsL rest

end

mutual

/-- All key paths (token sequences) from a node to each of its reachable
descendants, the node itself included (the empty path). -/
def allPaths : Node → List (List String)
  | .mk _ cs => [] :: allPathsL cs

/-- Paths contributed by an association list of children: each child's paths
with the child's key consed in front. -/
def allPathsL : List (String × Node) → List (List String)
  | [] => []
  | (t, n) :: rest => (allPaths n).map (fun p => t :: p) ++ allPathsL rest

end

/-- Key membership in a key list. -/
def keyMem (t : String) : List String → Bool
  | [] => false
  | k :: rest => if k = t then true else keyMem t rest

/-- No duplicate keys in a key list (the dict-key invariant). -/
def nodupKeys : List String → Bool
  | [] => true
  | t :: rest => !keyMem t rest && nodupKeys rest

mutual

/-- Every node of the trie has pairwise-distinct children keys (true of any
trie represented with Python dicts). -/
def goodNode : Node → Bool
  | .mk _ cs => nodupKeys (cs.map Prod.fst) && goodList cs

/-- `goodNode` holds of every child node in the association list. -/
def goodList : List (String × Node) → Bool
  | [] => true
  | (_, n) :: rest => goodNode n && goodList rest

end

/-- Length of the longest leading part of `ts` already present as a path in
the trie: the point at which insertion stops reusing nodes and starts
creating new ones. -/
def existingDepth : Node → List String → Nat
  | _, [] => 0
  | n, t :: ts =>
    match lookupChild t n.children with
    | some c => 1 + existingDepth c ts
    | none => 0

@[simp] theorem countNodes_mk (ids : List String) (cs : List (String × Node)) :
    countNodes (.mk ids cs) = 1 + countNodesL cs := by
  rw [countNodes]

@[simp] theorem countNodesL_nil : countNodesL [] = 0 := by rw [countNodesL]

@[simp] theorem countNodesL_cons (t : String) (n : Node) (rest : List (String × Node)) :
    countNodesL ((t, n) :: rest) = countNodes n + countNodesL rest := by
  rw [countNodesL]

@[simp] theorem totalIds_mk (ids : List String) (cs : List (String × Node)) :
    totalIds (.mk ids cs) = ids.length + totalIdsL cs := by
  rw [totalIds]

@[simp] theorem totalIdsL_nil : totalIdsL [] = 0 := by rw [totalIdsL]

@[simp] theorem totalIdsL_cons (t : String) (n : Node) (rest : List (String × Node)) :
    totalIdsL ((t, n) :: rest) = totalIds n + totalIdsL rest := by
  rw [totalIdsL]

@[simp] theorem allPaths_mk (ids : List String) (cs : List (String × Node)) :
    allPaths (.mk ids cs) = [] :: allPathsL cs := by
  rw [allPaths]

@[simp] theorem allPathsL_nil : allPathsL [] = [] := by rw [allPathsL]

@[simp] theorem allPathsL_cons (t : String) (n : Node) (rest : List (String × Node)) :
    allPathsL ((t, n) :: rest) = (allPaths n).map (fun p => t :: p) ++ allPathsL rest := by
  rw [allPathsL]

@[simp] theorem goodNode_mk (ids : List String) (cs : List (String × Node)) :
    goodNode (.mk ids cs) = (nodupKeys (cs.map Prod.fst) && goodList cs) := by
  rw [goodNode]

@[simp] theorem goodList_nil : goodList [] = true := by rw [goodList]

@[simp] theorem goodList_cons (t : String) (n : Node) (rest : List (String × Node)) :
    goodList ((t, n) :: rest) = (goodNode n && goodList rest) := by
  rw [goodList]

/-! ### Association-list lemmas -/

theorem lookupChild_update (q t : String) (x : Node) (cs : List (String × Node)) :
    lookupChild q (updateChild t x cs) =
      if q = t then (lookupChild t cs).map (fun _ => x) else lookupChild q cs := by
  induction cs with
  | nil => by_cases h : q = t <;> simp [h]
  | cons kn rest ih =>
    obtain ⟨k, n⟩ := kn
    by_cases hkt : k = t
    · subst hkt
      by_cases hq : q = k
      · subst hq; simp
      · simp [hq, show ¬ k = q from fun h => hq h.symm]
    · simp only [updateChild_cons, if_neg hkt, lookupChild_cons]
      by_cases hkq : k = q
      · subst hkq
        simp [show ¬ k = t from hkt]
      · simp [hkq, hkt, ih]

theorem lookupChild_append (q : String) (cs ds : List (String × Node)) :
    lookupChild q (cs ++ ds) =
      match lookupChild q cs with
      | some n => some n
      | none => lookupChild q ds := by
  induction cs with
  | nil => simp
  | cons kn rest ih =>
    obtain ⟨k, n⟩ := kn
    by_cases hq : k = q <;> simp [hq, ih]

theorem keys_update (t : String) (x : Node) (cs : List (String × Node)) :
    (updateChild t x cs).map Prod.fst = cs.map Prod.fst := by
  induction cs with
  | nil => simp
  | cons kn rest ih =>
    obtain ⟨k, n⟩ := kn
    by_cases hkt : k = t <;> simp [hkt, ih]

theorem lookupChild_none_not_mem (t : String) (cs : List (String × Node))
    (h : lookupChild t cs = none) : keyMem t (cs.map Prod.fst) = false := by
  induction cs with
  | nil => simp [keyMem]
  | cons kn rest ih =>
    obtain ⟨k, n⟩ := kn
    by_cases hkt : k = t
    · simp [hkt] at h
    · simp [hkt] at h
      simp [keyMem, hkt, ih h]

theorem goodList_lookup (t : String) (cs : List (String × Node)) (c : Node)
    (hg : goodList cs = true) (h : lookupChild t cs = some c) : goodNode c = true := by
  induction cs with
  | nil => simp at h
  | cons kn rest ih =>
    obtain ⟨k, n⟩ := kn
    simp at hg
    by_cases hkt : k = t
    · simp [hkt] at h
      exact h ▸ hg.1
    · simp [hkt] at h
      exact ih hg.2 h

theorem goodList_update (t : String) (x : Node) (cs : List (String × Node))
    (hg : goodList cs = true) (hx : goodNode x = true) :
    goodList (updateChild t x cs) = true := by
  induction cs with
  | nil => simp
  | cons kn rest ih =>
    obtain ⟨k, n⟩ := kn
    simp at hg
    by_cases hkt : k = t <;> simp [hkt, hx, hg.1, hg.2, ih hg.2]

theorem goodList_append (cs ds : List (String × Node)) :
    goodList (cs ++ ds) = (goodList cs && goodList ds) := by
  induction cs with
  | nil => simp
  | cons kn rest ih =>
    obtain ⟨k, n⟩ := kn
    simp [ih, Bool.and_assoc]

/-! ### Insertion lemmas -/

@[simp] theorem insertTokens_nil (n : Node) (i : String) :
    insertTokens n [] i = .mk (n.ids ++ [i]) n.children := rfl

theorem insertTokens_cons (n : Node) (t : String) (ts : List String) (i : String) :
    insertTokens n (t :: ts) i =
      match lookupChild t n.children with
      | some c => .mk n.ids (updateChild t (insertTokens c ts i) n.children)
      | none => .mk n.ids (n.children ++ [(t, insertTokens emptyNode ts i)]) := rfl

@[simp] theorem idsAt_nil (n : Node) : idsAt n [] = n.ids := rfl

theorem idsAt_cons (n : Node) (q : String) (ps : List String) :
    idsAt n (q :: ps) =
      match lookupChild q n.children with
      | some c => idsAt c ps
      | none => [] := by
  unfold idsAt
  rw [findNode_cons]
  cases lookupChild q n.children with
  | none => rfl
  | some c => rfl

@[simp] theorem idsAt_emptyNode (p : List String) : idsAt emptyNode p = [] := by
  cases p with
  | nil => rfl
  | cons q ps => rw [idsAt_cons]; rfl

/-- Master lemma: inserting `(ts, i)` appends `i` to the ids found at path
`ts` and leaves the ids at every other path unchanged. -/
theorem idsAt_insert (ts : List String) (n : Node) (i : String) (p : List String) :
    idsAt (insertTokens n ts i) p = idsAt n p ++ if p = ts then [i] else [] := by
  induction ts generalizing n p with
  | nil =>
    cases p with
    | nil => simp
    | cons q ps =>
      rw [insertTokens_nil, idsAt_cons, idsAt_cons]
      simp only [Node.children_mk]
      rw [if_neg (List.cons_ne_nil q ps), List.append_nil]
  | cons t ts ih =>
    rw [insertTokens_cons]
    cases hl : lookupChild t n.children with
    | some c =>
      cases p with
      | nil => simp
      | cons q ps =>
        rw [idsAt_cons, idsAt_cons]
        simp only [Node.children_mk]
        rw [lookupChild_update]
        by_cases hq : q = t
        · subst hq
          rw [if_pos rfl, hl]
          simp [ih]
        · rw [if_neg hq, if_neg (by simp [hq]), List.append_nil]
    | none =>
      cases p with
      | nil => simp
      | cons q ps =>
        rw [idsAt_cons, idsAt_cons]
        simp only [Node.children_mk]
        rw [lookupChild_append]
        by_cases hq : q = t
        · subst hq
          rw [hl]
          simp only [lookupChild_cons, if_pos rfl, lookupChild_nil]
          simp [ih]
        · rw [if_neg (by simp [hq]), List.append_nil]
          have hsingle : lookupChild q [(t, insertTokens emptyNode ts i)] = none := by
            simp [show ¬ t = q from fun h => hq h.symm]
          cases hl2 : lookupChild q n.children with
          | some c2 => simp [hl2]
          | none => simp [hl2, hsingle]

/-- `build_trie` restarted from an arbitrary trie (the loop of `build_trie`
with accumulator `n`). -/
def buildFrom (n : Node) (es : List Entity) : Node :=
  es.foldl (fun t e => insertTokens t e.tokens e.id) n

theorem build_trie_eq_buildFrom (es : List Entity) :
    build_trie es = buildFrom emptyNode es := rfl

@[simp] theorem buildFrom_nil (n : Node) : buildFrom n [] = n := rfl

@[simp] theorem buildFrom_cons (n : Node) (e : Entity) (es : List Entity) :
    buildFrom n (e :: es) = buildFrom (insertTokens n e.tokens e.id) es := rfl

theorem buildFrom_append (n : Node) (es fs : List Entity) :
    buildFrom n (es ++ fs) = buildFrom (buildFrom n es) fs := by
  simp [buildFrom, List.foldl_append]

theorem idsAt_buildFrom_suffix (es : List Entity) (n : Node) (p : List String) :
    ∃ s, idsAt (buildFrom n es) p = idsAt n p ++ s := by
  induction es generalizing n with
  | nil => exact ⟨[], by simp⟩
  | cons e es ih =>
    obtain ⟨s, hs⟩ := ih (insertTokens n e.tokens e.id)
    refine ⟨(if p = e.tokens then [e.id] else []) ++ s, ?_⟩
    rw [buildFrom_cons, hs, idsAt_insert, List.append_assoc]

theorem findNode_of_idsAt_ne (n : Node) (p : List String) (h : idsAt n p ≠ []) :
    ∃ m, findNode n p = some m ∧ m.ids = idsAt n p := by
  unfold idsAt at h ⊢
  cases hf : findNode n p with
  | none => rw [hf] at h; exact absurd rfl h
  | some m => exact ⟨m, rfl, rfl⟩

/-- Inserting never destroys an existing path. -/
theorem pathSome_insert (ts : List String) (n : Node) (i : String) (p : List String)
    (h : (findNode n p).isSome = true) :
    (findNode (insertTokens n ts i) p).isSome = true := by
  induction ts generalizing n p with
  | nil =>
    cases p with
    | nil => simp
    | cons q ps =>
      rw [insertTokens_nil, findNode_cons] at *
      simpa using h
  | cons t ts ih =>
    rw [insertTokens_cons]
    cases hl : lookupChild t n.children with
    | some c =>
      cases p with
      | nil => simp
      | cons q ps =>
        rw [findNode_cons] at h
        cases hl2 : lookupChild q n.children with
        | none => rw [hl2] at h; simp at h
        | some c2 =>
          rw [hl2] at h
          rw [findNode_cons]
          simp only [Node.children_mk]
          rw [lookupChild_update]
          by_cases hq : q = t
          · subst hq
            rw [hl] at hl2
            injection hl2 with hc
            subst hc
            rw [if_pos rfl, hl]
            have hmap : Option.map (fun _ => insertTokens c ts i) (some c)
                = some (insertTokens c ts i) := rfl
            rw [hmap]
            exact ih c ps h
          · rw [if_neg hq, hl2]
            exact h
    | none =>
      cases p with
      | nil => simp
      | cons q ps =>
        rw [findNode_cons] at h
        cases hl2 : lookupChild q n.children with
        | none => rw [hl2] at h; simp at h
        | some c2 =>
          rw [hl2] at h
          rw [findNode_cons]
          simp only [Node.children_mk]
          rw [lookupChild_append, hl2]
          exact h

theorem pathSome_buildFrom (es : List Entity) (n : Node) (p : List String)
    (h : (findNode n p).isSome = true) :
    (findNode (buildFrom n es) p).isSome = true := by
  induction es generalizing n with
  | nil => simpa using h
  | cons e es ih =>
    rw [buildFrom_cons]
    exact ih _ (pathSome_insert e.tokens n e.id p h)

/-- C1 core: the id of every entity of the input sequence is reachable in
the built trie by walking its tokens. -/
theorem mem_idsAt_build_trie (l1 l2 : List Entity) (e : Entity) :
    e.id ∈ idsAt (build_trie (l1 ++ e :: l2)) e.tokens := by
  rw [build_trie_eq_buildFrom, buildFrom_append, buildFrom_cons]
  obtain ⟨s, hs⟩ := idsAt_buildFrom_suffix l2 (insertTokens (buildFrom emptyNode l1) e.tokens e.id) e.tokens
  rw [hs, idsAt_insert, if_pos rfl]
  simp

/-! ### Loader lemmas -/

theorem processLine_of_len_ne (sgn : List String) (pat : String → Bool) (spt : List String)
    (line : String) (h : (splitFields line).length ≠ 4) :
    processLine sgn pat spt line = none := by
  unfold processLine
  cases f : splitFields line with
  | nil => rfl
  | cons a l1 =>
    cases l1 with
    | nil => rfl
    | cons b l2 =>
      cases l2 with
      | nil => rfl
      | cons c l3 =>
        cases l3 with
        | nil => rfl
        | cons d l4 =>
          cases l4 with
          | nil => exact absurd (by rw [f]; rfl) h
          | cons x l5 => rfl

theorem readLoop_append (sgn : List String) (pat : String → Bool) (spt : List String)
    (xs ys : List String) :
    readLoop sgn pat spt (xs ++ ys) = readLoop sgn pat spt xs ++ readLoop sgn pat spt ys := by
  induction xs with
  | nil => simp
  | cons line rest ih =>
    rw [List.cons_append, readLoop_cons, readLoop_cons]
    cases processLine sgn pat spt line with
    | none => exact ih
    | some e => rw [ih]; rfl

theorem readLoop_singleton (sgn : List String) (pat : String → Bool) (spt : List String)
    (line : String) :
    readLoop sgn pat spt [line] = (processLine sgn pat spt line).toList := by
  rw [readLoop_cons]
  cases processLine sgn pat spt line <;> rfl

theorem readLoop_eq_filterMap (sgn : List String) (pat : String → Bool) (spt : List String)
    (rs : List String) :
    readLoop sgn pat spt rs = rs.filterMap (processLine sgn pat spt) := by
  induction rs with
  | nil => simp
  | cons line rest ih =>
    rw [readLoop_cons, List.filterMap_cons]
    cases processLine sgn pat spt line with
    | none => exact ih
    | some e => rw [ih]

theorem readLoop_length (sgn : List String) (pat : String → Bool) (spt : List String)
    (rs : List String) :
    (readLoop sgn pat spt rs).length
      + rs.countP (fun l => (processLine sgn pat spt l).isNone) = rs.length := by
  induction rs with
  | nil => simp
  | cons line rest ih =>
    rw [readLoop_cons, List.countP_cons]
    cases processLine sgn pat spt line with
    | none => simp; omega
    | some e => simp; omega

/-! ### Counting lemmas -/

theorem totalIdsL_update (t : String) (x : Node) (cs : List (String × Node)) (c : Node)
    (h : lookupChild t cs = some c) :
    totalIdsL (updateChild t x cs) + totalIds c = totalIdsL cs + totalIds x := by
  induction cs with
  | nil => simp at h
  | cons kn rest ih =>
    obtain ⟨k, n⟩ := kn
    by_cases hkt : k = t
    · simp [hkt] at h
      subst h
      simp [hkt]
      omega
    · simp [hkt] at h
      have := ih h
      simp [hkt]
      omega

theorem totalIdsL_append (cs ds : List (String × Node)) :
    totalIdsL (cs ++ ds) = totalIdsL cs + totalIdsL ds := by
  induction cs with
  | nil => simp
  | cons kn rest ih =>
    obtain ⟨k, n⟩ := kn
    simp [ih]
    omega

theorem totalIds_emptyNode : totalIds emptyNode = 0 := by simp [emptyNode]

theorem totalIds_insert (ts : List String) (n : Node) (i : String) :
    totalIds (insertTokens n ts i) = totalIds n + 1 := by
  induction ts generalizing n with
  | nil =>
    cases n with
    | mk ids cs => simp; omega
  | cons t ts ih =>
    rw [insertTokens_cons]
    cases n with
    | mk ids cs =>
      simp only [Node.children_mk]
      cases hl : lookupChild t cs with
      | some c =>
        have hupd := totalIdsL_update t (insertTokens c ts i) cs c hl
        have hx := ih c
        simp
        omega
      | none =>
        have hy := ih emptyNode
        rw [totalIds_emptyNode] at hy
        simp [totalIdsL_append, hy]
        omega

theorem totalIds_buildFrom (es : List Entity) (n : Node) :
    totalIds (buildFrom n es) = totalIds n + es.length := by
  induction es generalizing n with
  | nil => simp
  | cons e es ih =>
    rw [buildFrom_cons, ih, totalIds_insert]
    simp
    omega

theorem countNodesL_update (t : String) (x : Node) (cs : List (String × Node)) (c : Node)
    (h : lookupChild t cs = some c) :
    countNodesL (updateChild t x cs) + countNodes c = countNodesL cs + countNodes x := by
  induction cs with
  | nil => simp at h
  | cons kn rest ih =>
    obtain ⟨k, n⟩ := kn
    by_cases hkt : k = t
    · simp [hkt] at h
      subst h
      simp [hkt]
      omega
    · simp [hkt] at h
      have := ih h
      simp [hkt]
      omega

theorem countNodesL_append (cs ds : List (String × Node)) :
    countNodesL (cs ++ ds) = countNodesL cs + countNodesL ds := by
  induction cs with
  | nil => simp
  | cons kn rest ih =>
    obtain ⟨k, n⟩ := kn
    simp [ih]
    omega

theorem countNodes_emptyNode : countNodes emptyNode = 1 := by simp [emptyNode]

@[simp] theorem existingDepth_nil (n : Node) : existingDepth n [] = 0 := rfl

theorem existingDepth_cons_some (n c : Node) (t : String) (ts : List String)
    (h : lookupChild t n.children = some c) :
    existingDepth n (t :: ts) = 1 + existingDepth c ts := by
  conv_lhs => unfold existingDepth
  rw [h]

theorem existingDepth_cons_none (n : Node) (t : String) (ts : List String)
    (h : lookupChild t n.children = none) :
    existingDepth n (t :: ts) = 0 := by
  conv_lhs => unfold existingDepth
  rw [h]

theorem existingDepth_emptyNode (ts : List String) : existingDepth emptyNode ts = 0 := by
  cases ts <;> rfl

theorem existingDepth_le (ts : List String) (n : Node) : existingDepth n ts ≤ ts.length := by
  induction ts generalizing n with
  | nil => simp
  | cons t ts ih =>
    cases hl : lookupChild t n.children with
    | some c =>
      rw [existingDepth_cons_some n c t ts hl]
      have := ih c
      simp
      omega
    | none =>
      rw [existingDepth_cons_none n t ts hl]
      simp

/-- Node-count growth under one insertion: all nodes along the existing
leading part of `ts` are reused; exactly the missing tail gets new nodes. -/
theorem countNodes_insert (ts : List String) (n : Node) (i : String) :
    countNodes (insertTokens n ts i) = countNodes n + (ts.length - existingDepth n ts) := by
  induction ts generalizing n with
  | nil =>
    cases n with
    | mk ids cs => simp
  | cons t ts ih =>
    rw [insertTokens_cons]
    cases n with
    | mk ids cs =>
      simp only [Node.children_mk]
      cases hl : lookupChild t cs with
      | some c =>
        have hupd := countNodesL_update t (insertTokens c ts i) cs c hl
        have hx := ih c
        rw [existingDepth_cons_some (Node.mk ids cs) c t ts hl]
        simp only [countNodes_mk, List.length_cons]
        omega
      | none =>
        have hy := ih emptyNode
        rw [countNodes_emptyNode, existingDepth_emptyNode] at hy
        rw [existingDepth_cons_none (Node.mk ids cs) t ts hl]
        simp only [countNodes_mk, List.length_cons, countNodesL_append,
          countNodesL_cons, countNodesL_nil]
        omega

theorem existingDepth_of_findNode (ts : List String) (n m : Node)
    (h : findNode n ts = some m) : existingDepth n ts = ts.length := by
  induction ts generalizing n with
  | nil => simp
  | cons t ts ih =>
    rw [findNode_cons] at h
    cases hl : lookupChild t n.children with
    | none => rw [hl] at h; simp at h
    | some c =>
      rw [hl] at h
      rw [existingDepth_cons_some n c t ts hl, ih c h]
      simp
      omega

/-- Inserting a token sequence whose full path already exists creates no new
nodes. -/
theorem countNodes_insert_of_found (ts : List String) (n m : Node) (i : String)
    (h : findNode n ts = some m) :
    countNodes (insertTokens n ts i) = countNodes n := by
  rw [countNodes_insert, existingDepth_of_findNode ts n m h]
  simp

/-! ### The children-keys-unique invariant and path uniqueness -/

@[simp] theorem keyMem_nil (t : String) : keyMem t [] = false := rfl

@[simp] theorem keyMem_cons (t k : String) (ks : List String) :
    keyMem t (k :: ks) = if k = t then true else keyMem t ks := rfl

theorem keyMem_iff (t : String) (ks : List String) : keyMem t ks = true ↔ t ∈ ks := by
  induction ks with
  | nil => simp
  | cons k ks ih =>
    by_cases hk : k = t
    · subst hk; simp
    · simp [hk, ih]
      intro h
      exact absurd h.symm hk

theorem keyMem_append (t : String) (ks ls : List String) :
    keyMem t (ks ++ ls) = (keyMem t ks || keyMem t ls) := by
  induction ks with
  | nil => simp
  | cons k ks ih =>
    by_cases hk : k = t <;> simp [hk, ih]

@[simp] theorem nodupKeys_nil : nodupKeys [] = true := rfl

@[simp] theorem nodupKeys_cons (t : String) (ks : List String) :
    nodupKeys (t :: ks) = (!keyMem t ks && nodupKeys ks) := rfl

theorem nodupKeys_append_one (t : String) (ks : List String)
    (h1 : nodupKeys ks = true) (h2 : keyMem t ks = false) :
    nodupKeys (ks ++ [t]) = true := by
  induction ks with
  | nil => simp
  | cons k ks ih =>
    simp at h1 h2
    have hkt : ¬ k = t := h2.1
    simp [keyMem_append, h1.2, ih h1.2 h2.2, h1.1]
    intro he
    exact absurd he.symm hkt

theorem goodNode_emptyNode : goodNode emptyNode = true := by simp [emptyNode]

/-- Insertion preserves the dict invariant: children keys stay pairwise
distinct at every node. -/
theorem goodNode_insert (ts : List String) (n : Node) (i : String)
    (hg : goodNode n = true) : goodNode (insertTokens n ts i) = true := by
  induction ts generalizing n with
  | nil =>
    cases n with
    | mk ids cs => simpa using hg
  | cons t ts ih =>
    cases n with
    | mk ids cs =>
      simp at hg
      rw [insertTokens_cons]
      simp only [Node.children_mk]
      cases hl : lookupChild t cs with
      | some c =>
        have hc : goodNode c = true := goodList_lookup t cs c hg.2 hl
        simp [keys_update, hg.1, goodList_update t _ cs hg.2 (ih c hc)]
      | none =>
        have hnotmem := lookupChild_none_not_mem t cs hl
        simp [goodList_append, hg.2, ih emptyNode goodNode_emptyNode,
          nodupKeys_append_one t (cs.map Prod.fst) hg.1 hnotmem]

theorem goodNode_buildFrom (es : List Entity) (n : Node)
    (hg : goodNode n = true) : goodNode (buildFrom n es) = true := by
  induction es generalizing n with
  | nil => simpa using hg
  | cons e es ih =>
    rw [buildFrom_cons]
    exact ih _ (goodNode_insert e.tokens n e.id hg)

theorem goodNode_build_trie (es : List Entity) : goodNode (build_trie es) = true :=
  goodNode_buildFrom es emptyNode goodNode_emptyNode

theorem countNodes_pos (n : Node) : 1 ≤ countNodes n := by
  cases n with
  | mk ids cs => simp

theorem countNodesL_mem_le (cs : List (String × Node)) (t : String) (c : Node)
    (h : (t, c) ∈ cs) : countNodes c ≤ countNodesL cs := by
  induction cs with
  | nil => simp at h
  | cons kn rest ih =>
    obtain ⟨k, n⟩ := kn
    rcases List.mem_cons.mp h with h1 | h1
    · have h3 : c = n := (Prod.ext_iff.mp h1).2
      rw [h3]
      simp only [countNodesL_cons]
      omega
    · have := ih h1
      simp only [countNodesL_cons]
      omega

/-- Every path contributed by a children list is nonempty and starts with
one of its keys. -/
theorem allPathsL_mem (cs : List (String × Node)) (p : List String)
    (hp : p ∈ allPathsL cs) :
    ∃ t q c, p = t :: q ∧ (t, c) ∈ cs ∧ q ∈ allPaths c := by
  induction cs with
  | nil => simp at hp
  | cons kn rest ih =>
    obtain ⟨k, n⟩ := kn
    rw [allPathsL_cons] at hp
    rcases List.mem_append.mp hp with h1 | h1
    · obtain ⟨q, hq, rfl⟩ := List.mem_map.mp h1
      exact ⟨k, q, n, rfl, List.mem_cons_self _ _, hq⟩
    · obtain ⟨t, q, c, rfl, hm, hq⟩ := ih h1
      exact ⟨t, q, c, rfl, List.mem_cons_of_mem _ hm, hq⟩

/-- Helper for `allPaths_nodup_bounded`: distinct keys make the path lists
of distinct children disjoint. -/
theorem allPathsL_nodup_of (N : Nat)
    (IH : ∀ m : Node, countNodes m ≤ N → goodNode m = true → (allPaths m).Nodup) :
    ∀ cs : List (String × Node), countNodesL cs ≤ N →
      nodupKeys (cs.map Prod.fst) = true → goodList cs = true →
      (allPathsL cs).Nodup := by
  intro cs
  induction cs with
  | nil => intro _ _ _; simp
  | cons kn rest ih =>
    obtain ⟨k, n⟩ := kn
    intro hc hk hg
    simp only [countNodesL_cons] at hc
    simp only [List.map_cons, nodupKeys_cons, Bool.and_eq_true, Bool.not_eq_true'] at hk
    simp only [goodList_cons, Bool.and_eq_true] at hg
    rw [allPathsL_cons]
    rw [List.nodup_append]
    refine ⟨?_, ?_, ?_⟩
    · refine List.Nodup.map ?_ (IH n (by omega) hg.1)
      intro a b hab
      injection hab
    · exact ih (by omega) hk.2 hg.2
    · intro p hp1 hp2
      obtain ⟨q, _, rfl⟩ := List.mem_map.mp hp1
      obtain ⟨t, q2, c, he, hm, _⟩ := allPathsL_mem rest _ hp2
      injection he with he1 _
      subst he1
      have : keyMem k (rest.map Prod.fst) = true :=
        (keyMem_iff _ _).mpr (List.mem_map.mpr ⟨(k, c), hm, rfl⟩)
      rw [hk.1] at this
      exact Bool.false_ne_true this

theorem allPaths_nodup_bounded :
    ∀ N (n : Node), countNodes n ≤ N → goodNode n = true → (allPaths n).Nodup := by
  intro N
  induction N with
  | zero =>
    intro n hc _
    have := countNodes_pos n
    omega
  | succ N IH =>
    intro n hc hg
    cases n with
    | mk ids cs =>
      simp only [countNodes_mk] at hc
      simp only [goodNode_mk, Bool.and_eq_true] at hg
      rw [allPaths_mk, List.nodup_cons]
      constructor
      · intro hmem
        obtain ⟨t, q, c, he, _, _⟩ := allPathsL_mem cs [] hmem
        exact List.noConfusion he
      · exact allPathsL_nodup_of N IH cs (by omega) hg.1 hg.2

/-- In a trie whose nodes all have distinct children keys, every reachable
node position has exactly one key path: the enumeration of all paths has no
duplicates. -/
theorem allPaths_nodup (n : Node) (hg : goodNode n = true) : (allPaths n).Nodup :=
  allPaths_nodup_bounded (countNodes n) n le_rfl hg

theorem findNode_append (p : List String) (n : Node) (r : List String) :
    findNode n (p ++ r) = (findNode n p).bind (fun m => findNode m r) := by
  induction p generalizing n with
  | nil => simp
  | cons q ps ih =>
    rw [List.cons_append, findNode_cons, findNode_cons]
    cases lookupChild q n.children with
    | none => rfl
    | some c => exact ih c

/-! ### The skipped-names pattern -/

theorem isUpperChar_eq_false_of_digit (c : Char) (h : isDigitChar c = true) :
    isUpperChar c = false := by
  unfold isDigitChar isUpperChar at *
  simp only [Bool.and_eq_true, decide_eq_true_eq] at h
  obtain ⟨h1, h2⟩ := h
  simp only [Bool.and_eq_false_iff, decide_eq_false_iff_not]
  left
  intro h3
  have n2 : c.val.toNat ≤ 57 := h2
  have n3 : 65 ≤ c.val.toNat := h3
  omega

theorem mem_takeWhile_true {α : Type} (p : α → Bool) (l : List α) (c : α)
    (h : c ∈ l.takeWhile p) : p c = true := by
  induction l with
  | nil => simp [List.takeWhile] at h
  | cons a l ih =>
    rw [List.takeWhile_cons] at h
    by_cases hpa : p a = true
    · rw [if_pos hpa] at h
      rcases List.mem_cons.mp h with h1 | h1
      · exact h1 ▸ hpa
      · exact ih h1
    · rw [if_neg hpa] at h
      simp at h

theorem takeWhile_all_append {α : Type} (p : α → Bool) (u w : List α)
    (h : ∀ c ∈ u, p c = true) : (u ++ w).takeWhile p = u ++ w.takeWhile p := by
  induction u with
  | nil => simp
  | cons a u ih =>
    rw [List.cons_append, List.takeWhile_cons, if_pos (h a (List.mem_cons_self a u))]
    rw [ih fun c hc => h c (List.mem_cons_of_mem a hc), List.cons_append]

theorem dropWhile_all_append {α : Type} (p : α → Bool) (u w : List α)
    (h : ∀ c ∈ u, p c = true) : (u ++ w).dropWhile p = w.dropWhile p := by
  induction u with
  | nil => simp
  | cons a u ih =>
    rw [List.cons_append, List.dropWhile_cons, if_pos (h a (List.mem_cons_self a u))]
    exact ih fun c hc => h c (List.mem_cons_of_mem a hc)

/-- The language of the pattern `^[A-Z]+[0-9][A-Z0-9]*$` as the spec words
it: one or more uppercase letters, then at least one digit, then zero or
more uppercase-letter-or-digit characters. -/
def patSpec (s : String) : Prop :=
  ∃ u ds v, s.data = u ++ ds ++ v ∧
    u ≠ [] ∧ (∀ c ∈ u, isUpperChar c = true) ∧
    ds ≠ [] ∧ (∀ c ∈ ds, isDigitChar c = true) ∧
    (∀ c ∈ v, (isUpperChar c || isDigitChar c) = true)

theorem matchesPat_iff (s : String) : matchesPat s = true ↔ patSpec s := by
  constructor
  · intro h
    unfold matchesPat at h
    cases hr : s.data.dropWhile (fun c => isUpperChar c) with
    | nil => rw [hr] at h; simp at h
    | cons d v =>
      rw [hr] at h
      simp only [Bool.and_eq_true, Bool.not_eq_true'] at h
      obtain ⟨⟨hne, hd⟩, hv⟩ := h
      refine ⟨s.data.takeWhile (fun c => isUpperChar c), [d], v, ?_, ?_, ?_, ?_, ?_, ?_⟩
      · rw [List.append_assoc, List.singleton_append, ← hr,
          List.takeWhile_append_dropWhile]
      · intro h0
        rw [h0] at hne
        simp at hne
      · exact fun c hc => mem_takeWhile_true _ _ c hc
      · simp
      · intro c hc
        rw [List.mem_singleton.mp hc]
        exact hd
      · exact fun c hc => (List.all_eq_true.mp hv) c hc
  · rintro ⟨u, ds, v, hl, hu0, hu, hds0, hds, hv⟩
    cases ds with
    | nil => exact absurd rfl hds0
    | cons d ds =>
      have hld : s.data = u ++ d :: (ds ++ v) := by
        rw [hl]
        simp
      have hdd : isDigitChar d = true := hds d (List.mem_cons_self d ds)
      have hdup : (fun c => isUpperChar c) d = false := isUpperChar_eq_false_of_digit d hdd
      unfold matchesPat
      rw [hld, takeWhile_all_append _ u _ hu, dropWhile_all_append _ u _ hu,
        List.takeWhile_cons, if_neg (by simp [isUpperChar_eq_false_of_digit d hdd]),
        List.dropWhile_cons, if_neg (by simp [isUpperChar_eq_false_of_digit d hdd])]
      simp only [Bool.and_eq_true, Bool.not_eq_true']
      refine ⟨⟨?_, hdd⟩, ?_⟩
      · rw [List.append_nil]
        cases u with
        | nil => exact absurd rfl hu0
        | cons a u => simp
      · rw [List.all_eq_true]
        intro c hc
        rcases List.mem_append.mp hc with h1 | h1
        · rw [hds c (List.mem_cons_of_mem d h1)]
          simp
        · exact hv c h1

/-- Helper: the element placed immediately after a block of known length. -/
theorem get_after_block {α : Type} (A B : List α) (x : α) :
    (A ++ x :: B).get? A.length = some x := by
  induction A with
  | nil => simp
  | cons a A ih => simpa using ih

/-! ### Claims -/

/-- C1: For every entity in the sequence passed to the trie builder, walking
from the returned root node through `children` by the entity's tokens in
order reaches a node whose `ids` contains that entity's identifier. -/
theorem C1_trie_reaches_every_entity (es : List Entity) (e : Entity) (he : e ∈ es) :
    ∃ m, findNode (build_trie es) e.tokens = some m ∧ e.id ∈ m.ids := by
  obtain ⟨l1, l2, rfl⟩ := List.append_of_mem he
  have hmem := mem_idsAt_build_trie l1 l2 e
  have hne : idsAt (build_trie (l1 ++ e :: l2)) e.tokens ≠ [] := by
    intro h0
    rw [h0] at hmem
    exact absurd hmem (List.not_mem_nil _)
  obtain ⟨m, hm1, hm2⟩ := findNode_of_idsAt_ne _ _ hne
  exact ⟨m, hm1, by rw [hm2]; exact hmem⟩

/-- Witness for C1 at a concrete input. -/
theorem C1_witness :
    (Entity.mk ["North", "Sea"] "1001") ∈ [Entity.mk ["North", "Sea"] "1001"] ∧
    ∃ m, findNode (build_trie [Entity.mk ["North", "Sea"] "1001"])
        (Entity.mk ["North", "Sea"] "1001").tokens = some m ∧
      (Entity.mk ["North", "Sea"] "1001").id ∈ m.ids :=
  ⟨by simp, C1_trie_reaches_every_entity [Entity.mk ["North", "Sea"] "1001"]
    (Entity.mk ["North", "Sea"] "1001") (by simp)⟩

/-- C2 counterexample: a well-formed record with an empty name passes all
three filters, and the loader emits an `Entity` with an empty token list for
it — the record is not skipped, contradicting the claim. -/
theorem C2_counterexample :
    read_mr_entities SKIPPED_GEO_NAMES matchesPat SKIPPED_PLACE_TYPES
        ["MRGID\tGeoName\tLanguage\tPlacetype", "17\t\ten\tSea"]
      = [Entity.mk [] "17"] ∧
    ∃ e ∈ read_mr_entities SKIPPED_GEO_NAMES matchesPat SKIPPED_PLACE_TYPES
        ["MRGID\tGeoName\tLanguage\tPlacetype", "17\t\ten\tSea"], e.tokens = [] := by
  constructor
  · rfl
  · exact ⟨Entity.mk [] "17", by rw [show read_mr_entities SKIPPED_GEO_NAMES matchesPat
      SKIPPED_PLACE_TYPES ["MRGID\tGeoName\tLanguage\tPlacetype", "17\t\ten\tSea"]
      = [Entity.mk [] "17"] from rfl]; simp, rfl⟩

/-- C2 amended: a record whose name splits to zero tokens is not skipped —
if its line is well-formed and it passes the three filters, the loader emits
an `Entity` whose token list is empty. -/
theorem C2_amended_empty_name_entity (sgn : List String) (pat : String → Bool)
    (spt : List String) (line mrgid name lang ptype : String)
    (hf : splitFields line = [mrgid, name, lang, ptype])
    (hskip : processLine sgn pat spt line ≠ none)
    (htok : tokenize name = []) :
    processLine sgn pat spt line = some (Entity.mk [] mrgid) := by
  have hred : processLine sgn pat spt line
      = if (spt.contains ptype || sgn.contains name || pat name) = true then none
        else some (Entity.mk (tokenize name) mrgid) := by
    unfold processLine
    rw [hf]
  rw [hred] at hskip ⊢
  by_cases hc : (spt.contains ptype || sgn.contains name || pat name) = true
  · rw [if_pos hc] at hskip
    exact absurd rfl hskip
  · rw [if_neg hc, htok]

/-- Witness for C2 amended at a concrete input. -/
theorem C2_amended_witness :
    splitFields "17\t\ten\tSea" = ["17", "", "en", "Sea"] ∧
    processLine SKIPPED_GEO_NAMES matchesPat SKIPPED_PLACE_TYPES "17\t\ten\tSea" ≠ none ∧
    tokenize "" = [] ∧
    processLine SKIPPED_GEO_NAMES matchesPat SKIPPED_PLACE_TYPES "17\t\ten\tSea"
      = some (Entity.mk [] "17") :=
  ⟨by decide, by decide, by decide,
    C2_amended_empty_name_entity SKIPPED_GEO_NAMES matchesPat SKIPPED_PLACE_TYPES
      "17\t\ten\tSea" "17" "" "en" "Sea" (by decide) (by decide) (by decide)⟩

/-- C3: a well-formed record is skipped iff its place type is in the
skipped-place-types set, or its name is in the skipped-names set, or its
name is in the language of the alphanumeric-code pattern (one or more
uppercase letters, at least one digit, then uppercase-or-digit characters);
in particular name "As" is dropped regardless of place type, and "H2" is
dropped via the pattern. -/
theorem C3_filter_characterization (line mrgid name lang ptype : String)
    (hf : splitFields line = [mrgid, name, lang, ptype]) :
    (processLine SKIPPED_GEO_NAMES matchesPat SKIPPED_PLACE_TYPES line = none ↔
      ptype ∈ SKIPPED_PLACE_TYPES ∨ name ∈ SKIPPED_GEO_NAMES ∨ patSpec name)
    ∧ (name = "As" →
        processLine SKIPPED_GEO_NAMES matchesPat SKIPPED_PLACE_TYPES line = none)
    ∧ (name = "H2" →
        processLine SKIPPED_GEO_NAMES matchesPat SKIPPED_PLACE_TYPES line = none
        ∧ matchesPat "H2" = true) := by
  have hred : processLine SKIPPED_GEO_NAMES matchesPat SKIPPED_PLACE_TYPES line
      = if (SKIPPED_PLACE_TYPES.contains ptype || SKIPPED_GEO_NAMES.contains name
            || matchesPat name) = true then none
        else some (Entity.mk (tokenize name) mrgid) := by
    unfold processLine
    rw [hf]
  have hiff : processLine SKIPPED_GEO_NAMES matchesPat SKIPPED_PLACE_TYPES line = none ↔
      ptype ∈ SKIPPED_PLACE_TYPES ∨ name ∈ SKIPPED_GEO_NAMES ∨ patSpec name := by
    rw [hred]
    by_cases hc : (SKIPPED_PLACE_TYPES.contains ptype || SKIPPED_GEO_NAMES.contains name
        || matchesPat name) = true
    · rw [if_pos hc]
      simp only [Bool.or_eq_true] at hc
      constructor
      · intro _
        rcases hc with (h1 | h1) | h1
        · exact Or.inl (by simpa using h1)
        · exact Or.inr (Or.inl (by simpa using h1))
        · exact Or.inr (Or.inr ((matchesPat_iff name).mp h1))
      · intro _; rfl
    · rw [if_neg hc]
      simp only [Bool.or_eq_true, not_or] at hc
      constructor
      · intro h0
        exact absurd h0 (by simp)
      · intro h0
        rcases h0 with h1 | h1 | h1
        · exact absurd (by simpa using h1) hc.1.1
        · exact absurd (by simpa using h1) hc.1.2
        · exact absurd ((matchesPat_iff name).mpr h1) hc.2
  refine ⟨hiff, ?_, ?_⟩
  · intro hn
    exact hiff.mpr (Or.inr (Or.inl (by rw [hn]; simp [SKIPPED_GEO_NAMES])))
  · intro hn
    refine ⟨hiff.mpr (Or.inr (Or.inr ?_)), by decide⟩
    rw [hn]
    exact (matchesPat_iff "H2").mp (by decide)

/-- Witness for C3 at a concrete input. -/
theorem C3_witness :
    splitFields "1\tAs\ten\tSea" = ["1", "As", "en", "Sea"] ∧
    ((processLine SKIPPED_GEO_NAMES matchesPat SKIPPED_PLACE_TYPES "1\tAs\ten\tSea" = none ↔
      "Sea" ∈ SKIPPED_PLACE_TYPES ∨ "As" ∈ SKIPPED_GEO_NAMES ∨ patSpec "As")
    ∧ ("As" = "As" →
        processLine SKIPPED_GEO_NAMES matchesPat SKIPPED_PLACE_TYPES "1\tAs\ten\tSea" = none)
    ∧ ("As" = "H2" →
        processLine SKIPPED_GEO_NAMES matchesPat SKIPPED_PLACE_TYPES "1\tAs\ten\tSea" = none
        ∧ matchesPat "H2" = true)) :=
  ⟨by decide, C3_filter_characterization "1\tAs\ten\tSea" "1" "As" "en" "Sea" (by decide)⟩

/-- C4: a line after the header whose field count is not exactly four
produces no `Entity`, and processing continues with the other lines: the
loader output with the malformed line present equals the output with it
removed. -/
theorem C4_malformed_lines_skipped (sgn : List String) (pat : String → Bool)
    (spt : List String) (hdr bad : String) (pre post : List String)
    (h : (splitFields bad).length ≠ 4) :
    processLine sgn pat spt bad = none ∧
    read_mr_entities sgn pat spt (hdr :: (pre ++ bad :: post))
      = read_mr_entities sgn pat spt (hdr :: (pre ++ post)) := by
  have hp := processLine_of_len_ne sgn pat spt bad h
  refine ⟨hp, ?_⟩
  show readLoop sgn pat spt (pre ++ bad :: post) = readLoop sgn pat spt (pre ++ post)
  rw [readLoop_append, readLoop_append, readLoop_cons, hp]

/-- Witness for C4 at a concrete input. -/
theorem C4_witness :
    (splitFields "a\tb\tc").length ≠ 4 ∧
    (processLine SKIPPED_GEO_NAMES matchesPat SKIPPED_PLACE_TYPES "a\tb\tc" = none ∧
    read_mr_entities SKIPPED_GEO_NAMES matchesPat SKIPPED_PLACE_TYPES
        ("h" :: ([] ++ "a\tb\tc" :: ["1\tNorth Sea\ten\tSea"]))
      = read_mr_entities SKIPPED_GEO_NAMES matchesPat SKIPPED_PLACE_TYPES
        ("h" :: ([] ++ ["1\tNorth Sea\ten\tSea"]))) :=
  ⟨by decide, C4_malformed_lines_skipped SKIPPED_GEO_NAMES matchesPat SKIPPED_PLACE_TYPES
    "h" "a\tb\tc" [] ["1\tNorth Sea\ten\tSea"] (by decide)⟩

/-- C5: for two entities with identical token sequences, the second
insertion creates no new nodes (node count unchanged), and both ids end up
in the `ids` list of the terminal node of that shared path, in input order
(the first entity's id at an earlier position). -/
theorem C5_identical_token_sequences (pre mid post : List Entity) (e1 e2 : Entity)
    (h : e1.tokens = e2.tokens) :
    countNodes (insertTokens (build_trie (pre ++ e1 :: mid)) e2.tokens e2.id)
      = countNodes (build_trie (pre ++ e1 :: mid)) ∧
    ∃ m k l, findNode (build_trie (pre ++ e1 :: (mid ++ e2 :: post))) e1.tokens = some m
      ∧ k < l ∧ m.ids.get? k = some e1.id ∧ m.ids.get? l = some e2.id := by
  constructor
  · have hmem := mem_idsAt_build_trie pre mid e1
    have hne : idsAt (build_trie (pre ++ e1 :: mid)) e1.tokens ≠ [] := by
      intro h0
      rw [h0] at hmem
      exact absurd hmem (List.not_mem_nil _)
    obtain ⟨m0, hm0, _⟩ := findNode_of_idsAt_ne _ _ hne
    rw [← h]
    exact countNodes_insert_of_found e1.tokens _ m0 e2.id hm0
  · obtain ⟨s1, h3⟩ := idsAt_buildFrom_suffix mid
      (insertTokens (buildFrom emptyNode pre) e1.tokens e1.id) e1.tokens
    obtain ⟨s2, h5⟩ := idsAt_buildFrom_suffix post
      (insertTokens (buildFrom (insertTokens (buildFrom emptyNode pre) e1.tokens e1.id) mid)
        e2.tokens e2.id) e1.tokens
    have hbuild : build_trie (pre ++ e1 :: (mid ++ e2 :: post))
        = buildFrom (insertTokens (buildFrom (insertTokens (buildFrom emptyNode pre)
            e1.tokens e1.id) mid) e2.tokens e2.id) post := by
      rw [build_trie_eq_buildFrom, buildFrom_append, buildFrom_cons, buildFrom_append,
        buildFrom_cons]
    have h2 : idsAt (insertTokens (buildFrom emptyNode pre) e1.tokens e1.id) e1.tokens
        = idsAt (buildFrom emptyNode pre) e1.tokens ++ [e1.id] := by
      rw [idsAt_insert, if_pos rfl]
    have h4 : idsAt (insertTokens (buildFrom (insertTokens (buildFrom emptyNode pre)
          e1.tokens e1.id) mid) e2.tokens e2.id) e1.tokens
        = idsAt (buildFrom (insertTokens (buildFrom emptyNode pre) e1.tokens e1.id) mid)
            e1.tokens ++ [e2.id] := by
      rw [idsAt_insert, if_pos h]
    have hfinal : idsAt (build_trie (pre ++ e1 :: (mid ++ e2 :: post))) e1.tokens
        = idsAt (buildFrom emptyNode pre) e1.tokens ++ e1.id :: (s1 ++ e2.id :: s2) := by
      rw [hbuild, h5, h4, h3, h2]
      simp
    have hne2 : idsAt (build_trie (pre ++ e1 :: (mid ++ e2 :: post))) e1.tokens ≠ [] := by
      rw [hfinal]
      simp
    obtain ⟨m, hm1, hm2⟩ := findNode_of_idsAt_ne _ _ hne2
    refine ⟨m, (idsAt (buildFrom emptyNode pre) e1.tokens).length,
      (idsAt (buildFrom emptyNode pre) e1.tokens ++ e1.id :: s1).length, hm1, ?_, ?_, ?_⟩
    · simp only [List.length_append, List.length_cons]
      omega
    · rw [hm2, hfinal]
      exact get_after_block _ _ e1.id
    · rw [hm2, hfinal]
      have hform : idsAt (buildFrom emptyNode pre) e1.tokens ++ e1.id :: (s1 ++ e2.id :: s2)
          = (idsAt (buildFrom emptyNode pre) e1.tokens ++ e1.id :: s1) ++ e2.id :: s2 := by
        simp
      rw [hform]
      exact get_after_block _ _ e2.id

/-- Witness for C5 at a concrete input. -/
theorem C5_witness :
    (Entity.mk ["North", "Sea"] "1").tokens = (Entity.mk ["North", "Sea"] "2").tokens ∧
    (countNodes (insertTokens (build_trie ([] ++ Entity.mk ["North", "Sea"] "1" :: []))
        (Entity.mk ["North", "Sea"] "2").tokens (Entity.mk ["North", "Sea"] "2").id)
      = countNodes (build_trie ([] ++ Entity.mk ["North", "Sea"] "1" :: [])) ∧
    ∃ m k l, findNode (build_trie ([] ++ Entity.mk ["North", "Sea"] "1"
        :: ([] ++ Entity.mk ["North", "Sea"] "2" :: [])))
        (Entity.mk ["North", "Sea"] "1").tokens = some m
      ∧ k < l ∧ m.ids.get? k = some (Entity.mk ["North", "Sea"] "1").id
      ∧ m.ids.get? l = some (Entity.mk ["North", "Sea"] "2").id) :=
  ⟨by decide, C5_identical_token_sequences [] [] []
    (Entity.mk ["North", "Sea"] "1") (Entity.mk ["North", "Sea"] "2") (by decide)⟩

/-- C6: the sum of the lengths of `ids` over all nodes of the finished trie
equals the number of entities in the input sequence: every entity
contributes exactly one id placement. -/
theorem C6_one_id_placement_per_entity (es : List Entity) :
    totalIds (build_trie es) = es.length := by
  rw [build_trie_eq_buildFrom, totalIds_buildFrom, totalIds_emptyNode]
  omega

/-- C7: the built trie is a tree in which every reachable node position has
exactly one key path (`allPaths` has no duplicates); walking a composite
path factors through the node at its leading part (so two token sequences
sharing a leading part pass through the same nodes along it); and insertion
reuses every node along the already-existing leading part of the inserted
sequence, creating new nodes exactly past the point of divergence. -/
theorem C7_tree_paths_unique_and_shared (es : List Entity) :
    (allPaths (build_trie es)).Nodup
    ∧ (∀ (n : Node) (p r : List String),
        findNode n (p ++ r) = (findNode n p).bind fun m => findNode m r)
    ∧ ∀ (n : Node) (ts : List String) (i : String),
        countNodes (insertTokens n ts i) = countNodes n + (ts.length - existingDepth n ts) :=
  ⟨allPaths_nodup _ (goodNode_build_trie es),
   fun n p r => findNode_append p n r,
   fun n ts i => countNodes_insert ts n i⟩

/-- C8: the retain/skip decision (and the emitted entity, if any) for a
record is a pure function of the record and the filter parameters: its
contribution to the loader output is the same whatever records precede or
follow it. -/
theorem C8_decision_context_free (sgn : List String) (pat : String → Bool)
    (spt : List String) (pre post : List String) (r : String) :
    readLoop sgn pat spt (pre ++ r :: post)
      = readLoop sgn pat spt pre ++ (processLine sgn pat spt r).toList
          ++ readLoop sgn pat spt post := by
  have hsplit : pre ++ r :: post = pre ++ [r] ++ post := by simp
  rw [hsplit, readLoop_append, readLoop_append, readLoop_singleton]

/-- C9: the loader output lists the retained entities in input record order
(it is the order-preserving `filterMap` of the per-record function over the
records after the header), and its length is the input line count minus the
header line minus the skipped-or-malformed records. -/
theorem C9_order_preserved_and_count (sgn : List String) (pat : String → Bool)
    (spt : List String) (hdr : String) (records : List String) :
    read_mr_entities sgn pat spt (hdr :: records)
      = records.filterMap (processLine sgn pat spt)
    ∧ (read_mr_entities sgn pat spt (hdr :: records)).length
        = (hdr :: records).length - 1
            - records.countP (fun l => (processLine sgn pat spt l).isNone) := by
  have h1 : read_mr_entities sgn pat spt (hdr :: records)
      = readLoop sgn pat spt records := rfl
  refine ⟨?_, ?_⟩
  · rw [h1, readLoop_eq_filterMap]
  · rw [h1]
    have h2 := readLoop_length sgn pat spt records
    simp only [List.length_cons]
    omega

/-- C10: an entity with an empty token list appends its id to the root
node's own `ids` — the root becomes a terminal node; the entity is not
rejected and the children are untouched. -/
theorem C10_empty_tokens_mark_root (es : List Entity) (i : String) :
    build_trie (es ++ [Entity.mk [] i])
      = Node.mk ((build_trie es).ids ++ [i]) (build_trie es).children := by
  rw [build_trie_eq_buildFrom, buildFrom_append, buildFrom_cons, buildFrom_nil,
    build_trie_eq_buildFrom]
  rfl

end Mrner
